import Mathlib

/-!
Verification of the HTML case-corrector (src/c++/HtmlCaseCorrector.{h,cpp}).

Strings (file contents, path strings, filenames) are byte sequences, modelled
as `List Nat`; non-ASCII filenames are their UTF-8 byte sequences, exactly as
std::string / std::filesystem::path hold them on POSIX.  The filesystem is a
finite tree of named entries; a directory carries an accessibility flag
(listing an inaccessible directory throws filesystem_error in the source).
Paths are lists of components, as produced by fs::path decomposition.
-/

namespace HtmlCaseCorrector

/-- Byte strings: std::string contents and fs::path native strings. -/
abbrev Str := List Nat

/-- Standard UTF-8 encoding of one Unicode scalar value. -/
def utf8EncodeChar (c : Nat) : List Nat :=
  if c < 128 then [c]
  else if c < 2048 then [192 + c / 64, 128 + c % 64]
  else if c < 65536 then [224 + c / 4096, 128 + (c / 64) % 64, 128 + c % 64]
  else [240 + c / 262144, 128 + (c / 4096) % 64, 128 + (c / 64) % 64, 128 + c % 64]

/-- UTF-8 byte string of a Lean string literal (used to write concrete inputs). -/
def utf8 (s : String) : Str := (s.data.map Char.toNat).flatMap utf8EncodeChar

/-- Unicode scalar values of a Lean string literal. -/
def codepoints (s : String) : List Nat := s.data.map Char.toNat

/-- std::tolower in the default "C" locale applied to one byte: it folds only
the ASCII range A-Z; every other byte (including all bytes of a UTF-8 encoded
non-ASCII character) is returned unchanged. -/
def tolowerByte (c : Nat) : Nat := if 65 ≤ c ∧ c ≤ 90 then c + 32 else c

/-- Byte-wise tolower of a whole string (used for the extension check,
HtmlCaseCorrector.cpp line 49). -/
def toLowerStr (s : Str) : Str := s.map tolowerByte

/-- HtmlCaseCorrector::comparePathsIgnoreCase (HtmlCaseCorrector.cpp lines
106-111): std::equal over the two path strings with the element predicate
tolower(a) == tolower(b); the four-iterator overload also requires the two
ranges to have the same length. -/
def comparePathsIgnoreCase : Str → Str → Bool
  | [], [] => true
  | a :: as, b :: bs => (tolowerByte a == tolowerByte b) && comparePathsIgnoreCase as bs
  | _, _ => false

/-- Modelled from the spec: the "case-insensitive, codepoint-wise comparison
... a straightforward lowercase-fold comparison over Unicode scalar values"
(spec 4.2).  The simple lowercase fold is restricted here to the codepoints
exercised in this development: ASCII A-Z and the basic Cyrillic block
U+0400-U+042F (per Unicode, U+0410-U+042F map to +0x20 and U+0400-U+040F to
+0x50). -/
def specLowerCodepoint (c : Nat) : Nat :=
  if 65 ≤ c ∧ c ≤ 90 then c + 32
  else if 1040 ≤ c ∧ c ≤ 1071 then c + 32
  else if 1024 ≤ c ∧ c ≤ 1039 then c + 80
  else c

/-- Modelled from the spec: equality of two filenames (as sequences of Unicode
scalar values) under the codepoint-wise lowercase fold. -/
def specFoldEqual (a b : List Nat) : Bool :=
  a.map specLowerCodepoint == b.map specLowerCodepoint

/-! ## Filesystem model -/

/-- A filesystem node: a regular file, or a directory with an ordered entry
list (the deterministic iteration order of fs::directory_iterator) and an
accessibility flag; iterating an inaccessible directory throws. -/
inductive FsTree where
  | file : FsTree
  | dir (accessible : Bool) (entries : List (Str × FsTree)) : FsTree

/-- Exact (case-sensitive) lookup of one entry name in a directory listing. -/
def findEntry (es : List (Str × FsTree)) (n : Str) : Option (Str × FsTree) :=
  es.find? (fun e => e.1 == n)

/-- Descend from `root` along exact-case path components (the behaviour of a
case-sensitive filesystem when the kernel resolves a path).  Accessibility
flags do not block stat-style resolution, only listing. -/
def lookupNode (root : FsTree) : List Str → Option FsTree
  | [] => some root
  | n :: rest =>
    match root with
    | .file => none
    | .dir _ es =>
      match findEntry es n with
      | none => none
      | some e => lookupNode e.2 rest

/-- fs::exists for a component path. -/
def existsPath (root : FsTree) (p : List Str) : Bool := (lookupNode root p).isSome

/-- fs::directory_iterator over the directory at `p`: the ordered entry names,
or none when the construction throws (path missing, not a directory, or the
directory is not accessible). -/
def listEntries (root : FsTree) (p : List Str) : Option (List Str) :=
  match lookupNode root p with
  | some (.dir true es) => some (es.map Prod.fst)
  | _ => none

/-- HtmlCaseCorrector::getActualPath (HtmlCaseCorrector.cpp lines 14-30).
The source receives the candidate path and works with path.parent_path() and
path.filename(); here the candidate arrives already decomposed as
(parent components, filename).  If the parent does not exist: nullopt.
Otherwise iterate the parent directory (a filesystem_error, e.g. for an
inaccessible or non-directory parent, is caught: nullopt) and return the
first entry whose name compares equal under comparePathsIgnoreCase;
nullopt when no entry matches. -/
def getActualPath (root : FsTree) (parent : List Str) (name : Str) :
    Option (List Str × Str) :=
  if !(existsPath root parent) then none
  else
    match listEntries root parent with
    | none => none
    | some names =>
      match names.find? (fun e => comparePathsIgnoreCase e name) with
      | none => none
      | some e => some (parent, e)

/-! ## fs::path arithmetic used by updateAttribute -/

/-- The byte of the path separator. -/
def slashB : Nat := 47

/-- The components of a path string: split on the separator, empty components
collapsed — matching fs::path element iteration ("a//b" has the elements "a",
"b").  The model does not interpret "." or ".." components specially; the
claims below never use them. -/
def splitComponents (s : Str) : List Str :=
  (s.splitOn slashB).filter (fun c => !c.isEmpty)

/-- Does the path string denote an absolute path (leading separator)? -/
def isAbsolute (s : Str) : Bool := s.head? == some slashB

/-- Does the path string end in a separator (so its filename() is empty)? -/
def endsWithSlash (s : Str) : Bool := s.getLast? == some slashB

/-- fullPath = htmlFile.parent_path() / fs::path(value)
(HtmlCaseCorrector.cpp lines 96-97), returned in the decomposed form
(fullPath.parent_path() components, fullPath.filename()) consumed by
getActualPath.  An absolute value replaces the left operand of operator/; an
empty value or a trailing separator yields an empty filename. -/
def refTarget (parentDir : List Str) (value : Str) : List Str × Str :=
  if value.isEmpty then (parentDir, [])
  else
    let comps := splitComponents value
    let base := if isAbsolute value then [] else parentDir
    if endsWithSlash value then (base ++ comps, [])
    else (base ++ comps.dropLast, (comps.getLast?).getD [])

/-- UTF-8 bytes of "..". -/
def dotdot : Str := [46, 46]

/-- Lexical relative computation on component lists: strip the common leading
components, then one ".." per remaining base component followed by the
remaining target components (the behaviour of fs::relative over already
canonical paths; the model has no symlinks). -/
def relCore : List Str → List Str → List Str
  | ts, [] => ts
  | [], bs => bs.map (fun _ => dotdot)
  | t :: ts, b :: bs =>
    if t = b then relCore ts bs else (b :: bs).map (fun _ => dotdot) ++ t :: ts

/-- Join components into a generic path string with single separators. -/
def joinComps (cs : List Str) : Str := List.intercalate [slashB] cs

/-- fs::relative(target, base).string() (HtmlCaseCorrector.cpp line 101);
fs::relative of a path to itself is ".". -/
def fsRelative (target base : List Str) : Str :=
  let r := relCore target base
  if r.isEmpty then [46] else joinComps r

/-! ## replaceInContent -/

/-- Scan a suffix for the first position (absolute index `idx` at the head of
the suffix) at which `old` occurs; std::string::find semantics, including the
match of an empty needle at the end of the haystack. -/
def strFindFrom (old : Str) : Str → Nat → Option Nat
  | [], idx => if old.isPrefixOf [] then some idx else none
  | c :: t, idx => if old.isPrefixOf (c :: t) then some idx else strFindFrom old t (idx + 1)

/-- content.find(oldStr, pos): npos (none) when pos exceeds the size,
otherwise the least index at or after pos where oldStr occurs. -/
def strFind (content old : Str) (pos : Nat) : Option Nat :=
  if content.length < pos then none else strFindFrom old (content.drop pos) pos

/-- The while loop of HtmlCaseCorrector::replaceInContent
(HtmlCaseCorrector.cpp lines 113-119), fuel-indexed because the source loop
does not terminate for an empty oldStr: find the next occurrence at or after
pos, splice newStr over it (content.replace(pos, oldStr.length(), newStr)),
and resume right after the inserted text (pos += newStr.length()); none means
the fuel was exhausted before the loop exited. -/
def replaceLoop (old new : Str) : Nat → Str → Nat → Option Str
  | 0, _, _ => none
  | fuel + 1, content, pos =>
    match strFind content old pos with
    | none => some content
    | some p =>
      replaceLoop old new fuel
        (content.take p ++ new ++ content.drop (p + old.length)) (p + new.length)

/-- HtmlCaseCorrector::replaceInContent: run the loop with fuel
content.length + 1, which the termination theorem below shows is enough
whenever oldStr is non-empty. -/
def replaceInContent (content old new : Str) : Str :=
  (replaceLoop old new (content.length + 1) content 0).getD content

/-- The ReferenceRewriter contract view rewrite(documentText, corrections):
the correction pairs applied in order, each by replaceInContent. -/
def rewriteCorrections (content : Str) (corrections : List (Str × Str)) : Str :=
  corrections.foldl (fun c pr => replaceInContent c pr.1 pr.2) content

/-! ## updateAttribute / correctFileReferences / processFile -/

/-- The resolution performed by HtmlCaseCorrector::updateAttribute
(HtmlCaseCorrector.cpp lines 95-104) before any text change: build
fullPath = parent / value, run getActualPath on it, and on success return
fs::relative(actualPath, parent).string(). -/
def resolveVal (root : FsTree) (parentDir : List Str) (value : Str) : Option Str :=
  match getActualPath root (refTarget parentDir value).1 (refTarget parentDir value).2 with
  | none => none
  | some (p, e) => some (fsRelative (p ++ [e]) parentDir)

/-- HtmlCaseCorrector::updateAttribute: if the candidate resolves, replace the
attribute's literal value throughout the content; otherwise leave the content
alone.  Note: the source performs no check whatsoever on the shape of the
value (no empty / scheme / leading-slash rejection). -/
def updateAttribute (root : FsTree) (parentDir : List Str) (value content : Str) : Str :=
  match resolveVal root parentDir value with
  | none => content
  | some r => replaceInContent content value r

/-- HtmlCaseCorrector::correctFileReferences / processNode (HtmlCaseCorrector.cpp
lines 62-93): the Gumbo parse tree is an external collaborator; its depth-first
walk yields the src/href attribute literal values in document order, abstracted
here as the list `refs`.  Each value is fed to updateAttribute in order. -/
def correctFileReferences (root : FsTree) (parentDir : List Str)
    (refs : List Str) (content : Str) : Str :=
  refs.foldl (fun c v => updateAttribute root parentDir v c) content

/-- HtmlCaseCorrector::processFile (HtmlCaseCorrector.cpp lines 32-39):
read, correct, write only when the corrected text differs.  Result: the
on-disk content after the call, and whether a write happened. -/
def processFile (root : FsTree) (parentDir : List Str)
    (refs : List Str) (content : Str) : Str × Bool :=
  let corrected := correctFileReferences root parentDir refs content
  if content = corrected then (content, false) else (corrected, true)

/-! ## findHtmlFiles -/

/-- fs::path::extension() of a filename: from its last dot (dot included);
empty for no dot, for a leading dot as the only dot, and for "." / "..". -/
def extOf (name : Str) : Str :=
  if name = [46] ∨ name = [46, 46] then []
  else
    match name.reverse.findIdx? (fun b => b == 46) with
    | none => []
    | some k =>
      let p := name.length - 1 - k
      if p = 0 then [] else name.drop p

/-- The extension test of HtmlCaseCorrector::findHtmlFiles (lines 48-50):
byte-wise ::tolower of the extension, then membership in {".html", ".htm"}. -/
def isHtmlExt (name : Str) : Bool :=
  toLowerStr (extOf name) == [46, 104, 116, 109, 108] ||
  toLowerStr (extOf name) == [46, 104, 116, 109]

/-- One pass of fs::recursive_directory_iterator over the entries of one
directory, as consumed by the try block of findHtmlFiles (lines 45-57): each
entry is yielded in order (regular files with a matching extension are
collected, paths relative to the walked root); after yielding a directory
entry the iterator descends into it, and descending into an inaccessible
directory throws — the exception escapes the whole loop, so the Bool result
records whether the iteration ran to completion (false: it was cut short). -/
def walkAux (path : List Str) : List (Str × FsTree) → List (List Str) × Bool
  | [] => ([], true)
  | (n, .file) :: rest =>
    let r := walkAux path rest
    ((if isHtmlExt n then [path ++ [n]] else []) ++ r.1, r.2)
  | (n, .dir acc es) :: rest =>
    if acc then
      let s := walkAux (path ++ [n]) es
      if s.2 then
        let r := walkAux path rest
        (s.1 ++ r.1, r.2)
      else (s.1, false)
    else ([], false)

/-- HtmlCaseCorrector::findHtmlFiles (HtmlCaseCorrector.cpp lines 41-60): the
collected files, plus whether the walk completed without a filesystem_error
(when it did not, the error was printed as a diagnostic and the files found
so far are returned; the function itself never fails).  Constructing the
iterator on an inaccessible or non-directory root throws immediately. -/
def findHtmlFiles (root : FsTree) : List (List Str) × Bool :=
  match root with
  | .file => ([], false)
  | .dir acc es => if acc then walkAux [] es else ([], false)

/-- Specification-side full enumeration: every regular file with a matching
extension anywhere under the entries, in the same depth-first order,
ignoring accessibility. -/
def allHtmlFilesAux (path : List Str) : List (Str × FsTree) → List (List Str)
  | [] => []
  | (n, .file) :: rest =>
    (if isHtmlExt n then [path ++ [n]] else []) ++ allHtmlFilesAux path rest
  | (n, .dir _ es) :: rest =>
    allHtmlFilesAux (path ++ [n]) es ++ allHtmlFilesAux path rest

/-- Every HTML file in the tree, in traversal order. -/
def allHtmlFiles (root : FsTree) : List (List Str) :=
  match root with
  | .file => []
  | .dir _ es => allHtmlFilesAux [] es

/-- No directory among the entries (recursively) is inaccessible. -/
def allAccessibleEntries : List (Str × FsTree) → Bool
  | [] => true
  | (_, .file) :: rest => allAccessibleEntries rest
  | (_, .dir acc es) :: rest => acc && allAccessibleEntries es && allAccessibleEntries rest

/-- The root is an accessible directory and so is every directory below it. -/
def allAccessibleTree : FsTree → Bool
  | .file => false
  | .dir acc es => acc && allAccessibleEntries es

/-! ## The parser collaborator and whole-file runs -/

/-- UTF-8 bytes of the attribute openers src=" and href=". -/
def srcKey : Str := [115, 114, 99, 61, 34]

/-- See srcKey. -/
def hrefKey : Str := [104, 114, 101, 102, 61, 34]

/-- Modelled from the spec: the external HTML parser collaborator (spec 6)
that the core delegates to (gumbo_parse / gumbo_get_attribute are not part of
this repository).  For the well-formed markup fragment used below — lowercase
src / href attribute names, double-quoted values, no character references, at
most one of src/href per element — the parser yields exactly the quoted
values, in document order; this left-to-right scan produces the same
sequence.  Fuel-indexed for structural recursion; each step consumes at least
one byte, so length + 1 fuel is exact. -/
def extractAux (fuel : Nat) (s : Str) : List Str :=
  match fuel with
  | 0 => []
  | fuel + 1 =>
    match s with
    | [] => []
    | c :: rest =>
      if srcKey.isPrefixOf (c :: rest) then
        let v := ((c :: rest).drop 5).takeWhile (fun b => b != 34)
        v :: extractAux fuel ((c :: rest).drop (v.length + 6))
      else if hrefKey.isPrefixOf (c :: rest) then
        let v := ((c :: rest).drop 6).takeWhile (fun b => b != 34)
        v :: extractAux fuel ((c :: rest).drop (v.length + 7))
      else extractAux fuel rest

/-- See extractAux. -/
def extractRefs (s : Str) : List Str := extractAux (s.length + 1) s

/-- One run of the corrector over one document: extract the references from
the current text (the parse happens on the text as read), then processFile. -/
def runFile (root : FsTree) (parentDir : List Str) (content : Str) : Str × Bool :=
  processFile root parentDir (extractRefs content) content

/-! ## processDirectory -/

/-- One file as the directory driver sees it: its containing directory, the
references its markup yields, its content, and whether the two I/O calls of
processFile would succeed (readFile throws when the file cannot be opened for
reading, writeFile when it cannot be opened for writing). -/
structure SrcFile where
  pd : List Str
  refs : List Str
  content : Str
  readable : Bool
  writable : Bool

/-- The driver-visible outcome for one file: processFile returned normally
(with the resulting on-disk content and whether it wrote), or it threw and
the catch block printed the diagnostic, the file left as it was. -/
inductive Outcome where
  | done (content : Str) (wrote : Bool) : Outcome
  | errorReported (content : Str) : Outcome
deriving DecidableEq

/-- The body of the processDirectory loop (HtmlCaseCorrector.cpp lines 5-11):
try { processFile } catch { print and fall through }.  readFile throws for an
unreadable file (lines 121-128, before anything else happens); writeFile
throws for an unwritable one (lines 130-136), which is only reached when the
corrected text differs; an exception leaves the file content untouched. -/
def fileOutcome (root : FsTree) (f : SrcFile) : Outcome :=
  if f.readable = false then .errorReported f.content
  else
    let r := processFile root f.pd f.refs f.content
    if r.2 && !f.writable then .errorReported f.content
    else .done r.1 r.2

/-- HtmlCaseCorrector::processDirectory (HtmlCaseCorrector.cpp lines 4-12):
the loop over the files found by findHtmlFiles, each iteration shielded by
its own try/catch, so the loop always advances to the next file. -/
def processDirectory (root : FsTree) : List SrcFile → List Outcome
  | [] => []
  | f :: fs => fileOutcome root f :: processDirectory root fs

/-! ## The rewriter's contract (spec 4.4), as a relation -/

/-- Modelled from the spec: the replacement process of ReferenceRewriter for
one correction pair — "find the first occurrence of oldLiteral scanning the
current text, replace it, and continue scanning from immediately after the
replacement's end ... repeat until no more occurrences of oldLiteral remain".
ScanRepl old new content pos out: starting from scan position pos on content,
the process described by the spec ends with the text out. -/
inductive ScanRepl (old new : Str) : Str → Nat → Str → Prop where
  | noMore (content : Str) (pos : Nat)
      (h : ∀ q, pos ≤ q → ¬ old <+: content.drop q) :
      ScanRepl old new content pos content
  | step (content : Str) (pos p : Nat) (out : Str)
      (hple : pos ≤ p) (hocc : old <+: content.drop p)
      (hleft : ∀ q, pos ≤ q → q < p → ¬ old <+: content.drop q)
      (hrest : ScanRepl old new
        (content.take p ++ new ++ content.drop (p + old.length)) (p + new.length) out) :
      ScanRepl old new content pos out

/-! ## Helper lemmas -/

lemma isPrefixOf_true_iff (a b : Str) : a.isPrefixOf b = true ↔ a <+: b :=
  List.isPrefixOf_iff_prefix

lemma strFindFrom_none (old : Str) :
    ∀ (s : Str) (idx : Nat), strFindFrom old s idx = none →
      ∀ k, ¬ old <+: s.drop k := by
  intro s
  induction s with
  | nil =>
    intro idx h k hc
    rw [strFindFrom] at h
    by_cases hp : old.isPrefixOf [] = true
    · simp [hp] at h
    · rw [List.drop_nil] at hc
      exact hp ((isPrefixOf_true_iff _ _).mpr hc)
  | cons c t ih =>
    intro idx h k
    rw [strFindFrom] at h
    by_cases hp : old.isPrefixOf (c :: t) = true
    · simp [hp] at h
    · simp only [hp, Bool.false_eq_true, if_false] at h
      match k with
      | 0 =>
        intro hc
        exact hp ((isPrefixOf_true_iff _ _).mpr hc)
      | k + 1 =>
        simpa using ih (idx + 1) h k

lemma strFindFrom_some (old : Str) :
    ∀ (s : Str) (idx p : Nat), strFindFrom old s idx = some p →
      idx ≤ p ∧ p - idx ≤ s.length ∧ old <+: s.drop (p - idx) ∧
      ∀ k, k < p - idx → ¬ old <+: s.drop k := by
  intro s
  induction s with
  | nil =>
    intro idx p h
    rw [strFindFrom] at h
    by_cases hp : old.isPrefixOf [] = true
    · simp only [hp, if_true, Option.some.injEq] at h
      subst h
      refine ⟨le_refl _, by omega, ?_, by omega⟩
      simpa using (isPrefixOf_true_iff _ _).mp hp
    · simp [hp] at h
  | cons c t ih =>
    intro idx p h
    rw [strFindFrom] at h
    by_cases hp : old.isPrefixOf (c :: t) = true
    · simp only [hp, if_true, Option.some.injEq] at h
      subst h
      refine ⟨le_refl _, by omega, ?_, by omega⟩
      simpa using (isPrefixOf_true_iff _ _).mp hp
    · simp only [hp, Bool.false_eq_true, if_false] at h
      obtain ⟨h1, h2, h3, h4⟩ := ih (idx + 1) p h
      refine ⟨by omega, by simp; omega, ?_, ?_⟩
      · have he : p - idx = (p - (idx + 1)) + 1 := by omega
        rw [he, List.drop_succ_cons]
        exact h3
      · intro k hk
        match k with
        | 0 =>
          intro hc
          exact hp ((isPrefixOf_true_iff _ _).mpr hc)
        | k + 1 =>
          rw [List.drop_succ_cons]
          exact h4 k (by omega)

lemma strFind_none (c old : Str) (pos : Nat) (hold : old ≠ [])
    (h : strFind c old pos = none) :
    ∀ q, pos ≤ q → ¬ old <+: c.drop q := by
  intro q hq hc
  rw [strFind] at h
  by_cases hlt : c.length < pos
  · have hnil : c.drop q = [] := List.drop_eq_nil_of_le (by omega)
    rw [hnil] at hc
    exact hold (List.prefix_nil.mp hc)
  · simp only [hlt, if_false] at h
    have := strFindFrom_none old (c.drop pos) pos h (q - pos)
    rw [List.drop_drop] at this
    have he : pos + (q - pos) = q := by omega
    rw [he] at this
    exact this hc

lemma strFind_some (c old : Str) (pos p : Nat)
    (h : strFind c old pos = some p) :
    pos ≤ p ∧ p ≤ c.length ∧ old <+: c.drop p ∧
    ∀ q, pos ≤ q → q < p → ¬ old <+: c.drop q := by
  rw [strFind] at h
  by_cases hlt : c.length < pos
  · simp [hlt] at h
  · simp only [hlt, if_false] at h
    obtain ⟨h1, h2, h3, h4⟩ := strFindFrom_some old (c.drop pos) pos p h
    rw [List.length_drop] at h2
    rw [List.drop_drop] at h3
    have he : pos + (p - pos) = p := by omega
    rw [he] at h3
    refine ⟨h1, by omega, h3, ?_⟩
    intro q hq1 hq2 hc
    have := h4 (q - pos) (by omega)
    rw [List.drop_drop] at this
    have he2 : pos + (q - pos) = q := by omega
    rw [he2] at this
    exact this hc

lemma occ_splice (c old : Str) (p : Nat) (h : old <+: c.drop p) :
    c.take p ++ old ++ c.drop (p + old.length) = c := by
  obtain ⟨t, ht⟩ := h
  have h2 : c.drop (p + old.length) = t := by
    have h3 := congrArg (List.drop old.length) ht
    rw [List.drop_left] at h3
    rw [h3, List.drop_drop]
  rw [List.append_assoc, h2, ht, List.take_append_drop]

lemma replaceLoop_isSome (old new : Str) (hold : old ≠ []) :
    ∀ (fuel : Nat) (c : Str) (pos : Nat),
      c.length + 1 - pos ≤ fuel → 1 ≤ fuel →
      (replaceLoop old new fuel c pos).isSome = true := by
  intro fuel
  induction fuel with
  | zero =>
    intro c pos _ hf
    omega
  | succ f ih =>
    intro c pos hm _
    rw [replaceLoop]
    cases hfind : strFind c old pos with
    | none => rfl
    | some p =>
      obtain ⟨h1, h2, h3, _⟩ := strFind_some c old pos p hfind
      have hlen : old.length ≤ (c.drop p).length := h3.length_le
      rw [List.length_drop] at hlen
      have holdpos : 1 ≤ old.length := List.length_pos.mpr hold
      have hnewlen :
          (c.take p ++ new ++ c.drop (p + old.length)).length
            = p + new.length + (c.length - (p + old.length)) := by
        simp [List.length_take]
        omega
      exact ih _ _ (by omega) (by omega)

lemma replaceLoop_self (v : Str) :
    ∀ (fuel : Nat) (c : Str) (pos : Nat),
      replaceLoop v v fuel c pos = none ∨ replaceLoop v v fuel c pos = some c := by
  intro fuel
  induction fuel with
  | zero =>
    intro c pos
    left
    rfl
  | succ f ih =>
    intro c pos
    rw [replaceLoop]
    cases hfind : strFind c v pos with
    | none =>
      right
      rfl
    | some p =>
      have hocc := (strFind_some c v pos p hfind).2.2.1
      dsimp only
      rw [occ_splice c v p hocc]
      exact ih c (p + v.length)

lemma replaceInContent_self (c v : Str) : replaceInContent c v v = c := by
  rw [replaceInContent]
  rcases replaceLoop_self v (c.length + 1) c 0 with h | h <;> rw [h] <;> rfl

lemma replaceLoop_sound (old new : Str) (hold : old ≠ []) :
    ∀ (fuel : Nat) (c : Str) (pos : Nat) (r : Str),
      replaceLoop old new fuel c pos = some r → ScanRepl old new c pos r := by
  intro fuel
  induction fuel with
  | zero =>
    intro c pos r h
    simp [replaceLoop] at h
  | succ f ih =>
    intro c pos r h
    rw [replaceLoop] at h
    cases hfind : strFind c old pos with
    | none =>
      rw [hfind] at h
      have hr : c = r := by
        simpa using h
      subst hr
      exact ScanRepl.noMore c pos (strFind_none c old pos hold hfind)
    | some p =>
      rw [hfind] at h
      obtain ⟨h1, _, h3, h4⟩ := strFind_some c old pos p hfind
      exact ScanRepl.step c pos p r h1 h3 h4 (ih _ _ r h)

lemma updateAttribute_id (root : FsTree) (pd : List Str) (v c : Str)
    (h : resolveVal root pd v = none ∨ resolveVal root pd v = some v) :
    updateAttribute root pd v c = c := by
  rcases h with h | h
  · simp [updateAttribute, h]
  · simp [updateAttribute, h, replaceInContent_self]

lemma correctFileReferences_id (root : FsTree) (pd : List Str) :
    ∀ (refs : List Str) (c : Str),
      (∀ v ∈ refs, resolveVal root pd v = none ∨ resolveVal root pd v = some v) →
      correctFileReferences root pd refs c = c := by
  intro refs
  induction refs with
  | nil =>
    intro c _
    rfl
  | cons v vs ih =>
    intro c h
    have h1 : correctFileReferences root pd (v :: vs) c
        = correctFileReferences root pd vs (updateAttribute root pd v c) := rfl
    rw [h1, updateAttribute_id root pd v c (h v (by simp))]
    exact ih c (fun x hx => h x (by simp [hx]))

lemma processFile_id_of_canonical (root : FsTree) (pd : List Str)
    (refs : List Str) (content : Str)
    (h : ∀ v ∈ refs, resolveVal root pd v = none ∨ resolveVal root pd v = some v) :
    processFile root pd refs content = (content, false) := by
  have hid := correctFileReferences_id root pd refs content h
  simp [processFile, hid]

lemma find?_first {α : Type} (p : α → Bool) :
    ∀ (l : List α) (a : α), l.find? p = some a →
      ∃ l1 l2, l = l1 ++ a :: l2 ∧ p a = true ∧ ∀ x ∈ l1, p x = false := by
  intro l
  induction l with
  | nil =>
    intro a h
    simp [List.find?] at h
  | cons b t ih =>
    intro a h
    by_cases hb : p b = true
    · rw [List.find?_cons_of_pos _ hb] at h
      have hab : a = b := by simpa using h.symm
      subst hab
      exact ⟨[], t, rfl, hb, by simp⟩
    · rw [List.find?_cons_of_neg _ (by simpa using hb)] at h
      obtain ⟨l1, l2, he, hp, hall⟩ := ih a h
      refine ⟨b :: l1, l2, by rw [he]; rfl, hp, ?_⟩
      intro x hx
      rcases List.mem_cons.mp hx with hx | hx
      · subst hx
        simpa using hb
      · exact hall x hx

lemma isPre_append_left {α : Type} (x : List α) {a b : List α} (h : a <+: b) :
    x ++ a <+: x ++ b := by
  obtain ⟨t, ht⟩ := h
  exact ⟨t, by rw [List.append_assoc, ht]⟩

lemma walkAux_spec :
    ∀ (path : List Str) (es : List (Str × FsTree)),
      (walkAux path es).1 <+: allHtmlFilesAux path es ∧
      ((walkAux path es).2 = true → (walkAux path es).1 = allHtmlFilesAux path es) ∧
      (allAccessibleEntries es = true → (walkAux path es).2 = true) := by
  apply walkAux.induct
  · intro path
    simp [walkAux, allHtmlFilesAux, allAccessibleEntries]
  · intro path n rest ih
    obtain ⟨ih1, ih2, ih3⟩ := ih
    rw [walkAux, allHtmlFilesAux, allAccessibleEntries]
    refine ⟨isPre_append_left _ ih1, ?_, ih3⟩
    intro hok
    rw [ih2 hok]
  · intro path n es rest s hs ihsub ihrest
    obtain ⟨_, ihsub2, _⟩ := ihsub
    obtain ⟨ihrest1, ihrest2, ihrest3⟩ := ihrest
    have hs' : (walkAux (path ++ [n]) es).2 = true := hs
    rw [walkAux, allHtmlFilesAux, allAccessibleEntries]
    simp only [eq_self_iff_true, if_true, hs', ihsub2 hs']
    refine ⟨isPre_append_left _ ihrest1, ?_, ?_⟩
    · intro hok
      rw [ihrest2 hok]
    · intro hall
      simp only [Bool.and_eq_true, Bool.true_and] at hall
      exact ihrest3 hall.2
  · intro path n es rest s hs ihsub
    obtain ⟨ihsub1, _, ihsub3⟩ := ihsub
    have hs' : ¬ (walkAux (path ++ [n]) es).2 = true := hs
    rw [walkAux, allHtmlFilesAux, allAccessibleEntries]
    simp only [eq_self_iff_true, if_true]
    rw [if_neg hs']
    refine ⟨ihsub1.trans (List.prefix_append _ _), by simp, ?_⟩
    intro hall
    simp only [Bool.and_eq_true, Bool.true_and] at hall
    exact absurd (ihsub3 hall.1) hs'
  · intro path n acc es rest hacc
    rw [walkAux, allHtmlFilesAux, allAccessibleEntries]
    rw [if_neg hacc]
    refine ⟨⟨_, rfl⟩, by simp, ?_⟩
    intro hall
    simp only [Bool.and_eq_true] at hall
    exact absurd hall.1.1 hacc

/-! ## Claim theorems -/

/-- Concrete filesystem for C1: a directory holding a Cyrillic-named file,
exactly as in the repository's own HandlesSpecialCharacters test. -/
def fsC1 : FsTree := .dir true [(utf8 "Изображение.jpg", .file)]

/-- C1: the claim states that comparePathsIgnoreCase decides equality under a
case-insensitive, codepoint-wise Unicode lowercase fold, so that Cyrillic
filenames resolve like ASCII ones.  The code instead applies the C-locale
std::tolower to each UTF-8 byte, which folds nothing outside ASCII A-Z: the
two spellings of the Cyrillic filename from the repository's own
HandlesSpecialCharacters test compare unequal (and the file therefore fails
to resolve), even though they are equal under the codepoint-wise fold,
while the ASCII pair from the tests compares equal. -/
theorem cyrillic_comparison_not_folded :
    comparePathsIgnoreCase (utf8 "Изображение.jpg") (utf8 "изображение.jpg") = false ∧
    specFoldEqual (codepoints "Изображение.jpg") (codepoints "изображение.jpg") = true ∧
    getActualPath fsC1 [] (utf8 "изображение.jpg") = none ∧
    comparePathsIgnoreCase (utf8 "Test.jpg") (utf8 "test.jpg") = true := by
  decide

/-- Concrete filesystem for C2: local directories whose names spell out the
path components of a URL-shaped reference value. -/
def fsC2 : FsTree :=
  .dir true [(utf8 "https:",
    .dir true [(utf8 "example.com", .dir true [(utf8 "X.jpg", .file)])])]

/-- The URL-shaped reference value of C2 and a document containing it. -/
def urlVal : Str := utf8 "https://example.com/x.jpg"

/-- See urlVal. -/
def urlDoc : Str := utf8 "<img src=\"https://example.com/x.jpg\">"

/-- C2 counterexample: the claim states that a value containing :// is
rejected before any filesystem resolution and is never altered regardless of
local file contents.  updateAttribute performs no such rejection: against a
filesystem whose local entries match the URL-shaped components, the value
https://example.com/x.jpg is resolved to the local entry and the document is
altered. -/
theorem url_value_resolved_and_altered :
    resolveVal fsC2 [] urlVal = some (utf8 "https:/example.com/X.jpg") ∧
    updateAttribute fsC2 [] urlVal urlDoc = utf8 "<img src=\"https:/example.com/X.jpg\">" ∧
    updateAttribute fsC2 [] urlVal urlDoc ≠ urlDoc := by
  decide

/-- C2 (amended): the source has no locality gate at all — every extracted
value, empty, URL-shaped or absolute alike, undergoes filesystem resolution;
a value is left unaltered whenever that resolution returns absent (which is
why an external URL is in practice untouched: its URL-shaped relative path
normally has no matching local entries), and with matching local entries it
is resolved and altered. -/
theorem unresolved_value_unaltered (root : FsTree) (pd : List Str) (v content : Str)
    (h : resolveVal root pd v = none) :
    updateAttribute root pd v content = content := by
  simp [updateAttribute, h]

/-- Concrete filesystem for the C2 witness: no entries match the URL-shaped
path, so resolution is absent and the document is unaltered. -/
def fsC2w : FsTree := .dir true [(utf8 "pic.jpg", .file)]

/-- C2 witness: the amended theorem applied at the URL-shaped value against a
filesystem without matching local entries. -/
theorem unresolved_value_unaltered_w :
    updateAttribute fsC2w [] urlVal urlDoc = urlDoc :=
  unresolved_value_unaltered fsC2w [] urlVal urlDoc (by decide)

/-- C9: getActualPath returns absent exactly when the parent directory does
not exist, cannot be listed, or no entry matches case-insensitively; and a
found result carries the parent together with the first case-insensitively
matching entry of the parent's deterministic listing order. -/
theorem getActualPath_characterization (root : FsTree) (parent : List Str) (name : Str) :
    (getActualPath root parent name = none ↔
      existsPath root parent = false ∨ listEntries root parent = none ∨
      ∃ es, listEntries root parent = some es ∧
        ∀ e ∈ es, comparePathsIgnoreCase e name = false) ∧
    (∀ q e, getActualPath root parent name = some (q, e) →
      q = parent ∧ comparePathsIgnoreCase e name = true ∧
      ∃ l1 l2, listEntries root parent = some (l1 ++ e :: l2) ∧
        ∀ x ∈ l1, comparePathsIgnoreCase x name = false) := by
  cases hex : existsPath root parent with
  | false =>
    refine ⟨by simp [getActualPath, hex], ?_⟩
    intro q e h
    simp [getActualPath, hex] at h
  | true =>
    cases hl : listEntries root parent with
    | none =>
      refine ⟨by simp [getActualPath, hex, hl], ?_⟩
      intro q e h
      simp [getActualPath, hex, hl] at h
    | some es =>
      cases hf : es.find? (fun e => comparePathsIgnoreCase e name) with
      | none =>
        have hall : ∀ e ∈ es, comparePathsIgnoreCase e name = false := by
          intro e he
          simpa using List.find?_eq_none.mp hf e he
        refine ⟨by simp [getActualPath, hex, hl, hf]; exact hall, ?_⟩
        intro q e h
        simp [getActualPath, hex, hl, hf] at h
      | some e0 =>
        have hpe : comparePathsIgnoreCase e0 name = true := by
          have hp0 := List.find?_some hf
          simpa using hp0
        have hmem : e0 ∈ es := List.mem_of_find?_eq_some hf
        have hg : getActualPath root parent name = some (parent, e0) := by
          simp [getActualPath, hex, hl, hf]
        constructor
        · constructor
          · intro h
            rw [hg] at h
            cases h
          · rintro (h | h | ⟨es', hes', hall⟩)
            · simp at h
            · simp at h
            · have he' : es = es' := by injection hes'
              subst he'
              have hfalse := hall e0 hmem
              rw [hpe] at hfalse
              cases hfalse
        · intro q e h
          rw [hg] at h
          have hqe : parent = q ∧ e0 = e := by simpa using h
          obtain ⟨hq, he⟩ := hqe
          subst hq
          subst he
          obtain ⟨l1, l2, hdec, _, hfirst⟩ := find?_first _ es e0 hf
          refine ⟨rfl, hpe, l1, l2, by rw [hdec], ?_⟩
          intro x hx
          simpa using hfirst x hx

/-- Concrete filesystem for the C9 witness: two entries collide under the
case-insensitive comparison; the first in listing order is returned. -/
def fsC9 : FsTree := .dir true [(utf8 "AA", .file), (utf8 "aa", .file)]

/-- C9 witness: the characterization applied at a concrete found result. -/
theorem getActualPath_characterization_w :
    ([] : List Str) = [] ∧ comparePathsIgnoreCase (utf8 "AA") (utf8 "aa") = true ∧
    ∃ l1 l2, listEntries fsC9 [] = some (l1 ++ utf8 "AA" :: l2) ∧
      ∀ x ∈ l1, comparePathsIgnoreCase x (utf8 "aa") = false :=
  (getActualPath_characterization fsC9 [] (utf8 "aa")).2 [] (utf8 "AA") (by decide)

/-- C10: for a non-empty oldStr the replacement loop terminates — the fuel
content.length + 1 that replaceInContent supplies is enough for the loop to
return (each replacement resumes past the inserted text, so the unscanned
suffix strictly shrinks), and replaceInContent equals the returned value. -/
theorem replaceInContent_terminates (content old new : Str) (h : old ≠ []) :
    ∃ r, replaceLoop old new (content.length + 1) content 0 = some r ∧
      replaceInContent content old new = r := by
  have h1 := replaceLoop_isSome old new h (content.length + 1) content 0 (by omega) (by omega)
  obtain ⟨r, hr⟩ := Option.isSome_iff_exists.mp h1
  exact ⟨r, hr, by simp [replaceInContent, hr]⟩

/-- C10 witness: termination at a concrete content and pattern. -/
theorem replaceInContent_terminates_w :
    ∃ r, replaceLoop (utf8 "ab") (utf8 "zzz") ((utf8 "abab").length + 1) (utf8 "abab") 0 = some r ∧
      replaceInContent (utf8 "abab") (utf8 "ab") (utf8 "zzz") = r :=
  replaceInContent_terminates (utf8 "abab") (utf8 "ab") (utf8 "zzz") (by decide)

/-- C6: replaceInContent realizes the leftmost-first, non-overlapping global
replacement process of the spec (ScanRepl: repeatedly take the first
occurrence at or after the scan position, splice the replacement in, resume
immediately after it, stop when no occurrence remains at or after the scan
position), for every non-empty oldLiteral; and an empty corrections sequence
leaves the text identical. -/
theorem rewriter_matches_spec :
    (∀ content : Str, rewriteCorrections content [] = content) ∧
    (∀ (content old new : Str), old ≠ [] →
      ScanRepl old new content 0 (replaceInContent content old new)) := by
  refine ⟨fun content => rfl, ?_⟩
  intro content old new hold
  have h1 := replaceLoop_isSome old new hold (content.length + 1) content 0 (by omega) (by omega)
  obtain ⟨r, hr⟩ := Option.isSome_iff_exists.mp h1
  have h2 : replaceInContent content old new = r := by
    simp [replaceInContent, hr]
  rw [h2]
  exact replaceLoop_sound old new hold (content.length + 1) content 0 r hr

/-- C6 witness: the characterization applied at a concrete text and pair. -/
theorem rewriter_matches_spec_w :
    rewriteCorrections (utf8 "xy") [] = utf8 "xy" ∧
    ScanRepl (utf8 "a") (utf8 "b") (utf8 "aa") 0
      (replaceInContent (utf8 "aa") (utf8 "a") (utf8 "b")) :=
  ⟨rewriter_matches_spec.1 (utf8 "xy"),
   rewriter_matches_spec.2 (utf8 "aa") (utf8 "a") (utf8 "b") (by decide)⟩

/-- Concrete filesystem for C4: the file exists with different casing, but
the reference literal does not occur in the raw document text (as happens in
the real program when the parsed attribute value is entity-decoded). -/
def fsC4 : FsTree := .dir true [(utf8 "A.jpg", .file)]

/-- C4 counterexample: the claim is an iff — rewritten exactly when some
reference resolves to a differing string.  Here the single reference a.jpg
resolves to the differing A.jpg, yet no write occurs, because the literal
does not occur in the raw text, so replaceInContent changes nothing. -/
theorem resolution_differs_but_no_write :
    resolveVal fsC4 [] (utf8 "a.jpg") = some (utf8 "A.jpg") ∧
    utf8 "A.jpg" ≠ utf8 "a.jpg" ∧
    processFile fsC4 [] [utf8 "a.jpg"] (utf8 "hello world") = (utf8 "hello world", false) := by
  decide

/-- C4 (amended): the write happens iff the replacement pass changed the
text; a write therefore implies that some reference resolved to a path
string differing from its literal, but the converse direction of the
claimed iff fails: a differing resolution whose literal never occurs in the
raw text (e.g. an entity-escaped attribute value) triggers no write. -/
theorem write_implies_resolution_differs (root : FsTree) (pd : List Str)
    (refs : List Str) (content : Str)
    (h : (processFile root pd refs content).2 = true) :
    ∃ v ∈ refs, ∃ r, resolveVal root pd v = some r ∧ r ≠ v := by
  by_contra hc
  push_neg at hc
  have hid : correctFileReferences root pd refs content = content := by
    apply correctFileReferences_id
    intro v hv
    cases hres : resolveVal root pd v with
    | none => exact Or.inl rfl
    | some r =>
      right
      rw [hc v hv r hres]
  simp [processFile, hid] at h

/-- C4 witness: with the literal present in the text the write does happen,
and the theorem recovers the differing resolution behind it. -/
theorem write_implies_resolution_differs_w :
    ∃ v ∈ [utf8 "a.jpg"], ∃ r, resolveVal fsC4 [] v = some r ∧ r ≠ v :=
  write_implies_resolution_differs fsC4 [] [utf8 "a.jpg"] (utf8 "a.jpg") (by decide)

/-- Concrete filesystem for C5: directory A containing B.jpg, both spelled
exactly as referenced. -/
def fsC5 : FsTree := .dir true [(utf8 "A", .dir true [(utf8 "B.jpg", .file)])]

/-- C5 counterexample: the claim says that when every local reference already
matches the on-disk casing exactly, the output bytes equal the input and no
write occurs.  The reference A//B.jpg names the on-disk entries A and B.jpg
with their exact casing (its components are exactly the on-disk names), yet
resolution yields the normalized spelling A/B.jpg, the text is changed and a
write occurs. -/
theorem exact_casing_still_rewritten :
    splitComponents (utf8 "A//B.jpg") = [utf8 "A", utf8 "B.jpg"] ∧
    resolveVal fsC5 [] (utf8 "A//B.jpg") = some (utf8 "A/B.jpg") ∧
    processFile fsC5 [] [utf8 "A//B.jpg"] (utf8 "<img src=\"A//B.jpg\">")
      = (utf8 "<img src=\"A/B.jpg\">", true) := by
  decide

/-- C5 (amended): no-op preservation holds under the byte-exact condition the
code actually implements: when every reference either does not resolve or
resolves to exactly its own literal string (not merely the same casing — no
redundant separators or other spelling differences), processing leaves the
content identical and performs no write. -/
theorem canonical_references_no_write (root : FsTree) (pd : List Str)
    (refs : List Str) (content : Str)
    (h : ∀ v ∈ refs, resolveVal root pd v = none ∨ resolveVal root pd v = some v) :
    processFile root pd refs content = (content, false) :=
  processFile_id_of_canonical root pd refs content h

/-- Concrete filesystem for the C5 witness: the reference equals the on-disk
spelling byte for byte. -/
def fsC5w : FsTree := .dir true [(utf8 "Test.jpg", .file)]

/-- C5 witness: the amended theorem applied at a byte-exact reference. -/
theorem canonical_references_no_write_w :
    processFile fsC5w [] [utf8 "Test.jpg"] (utf8 "<img src=\"Test.jpg\">")
      = (utf8 "<img src=\"Test.jpg\">", false) :=
  canonical_references_no_write fsC5w [] [utf8 "Test.jpg"] (utf8 "<img src=\"Test.jpg\">")
    (by decide)

/-- Concrete filesystem and document for C7: the disk holds aB and abc.jpg;
the document references ab and abc.jpg. -/
def fsC7 : FsTree := .dir true [(utf8 "aB", .file), (utf8 "abc.jpg", .file)]

/-- See fsC7. -/
def docC7 : Str := utf8 "<a href=\"ab\"><a href=\"abc.jpg\">"

/-- C7 counterexample: running the corrector twice is not idempotent.  In the
first run the replacement of ab by aB also rewrites the prefix of the other
attribute value abc.jpg, leaving aBc.jpg, whose own correction then no longer
finds its literal; the second run re-parses, resolves aBc.jpg
case-insensitively back to the on-disk abc.jpg, and changes the text again. -/
theorem second_run_changes_content :
    (runFile fsC7 [] docC7).1 = utf8 "<a href=\"aB\"><a href=\"aBc.jpg\">" ∧
    (runFile fsC7 [] (runFile fsC7 [] docC7).1).1 = utf8 "<a href=\"aB\"><a href=\"abc.jpg\">" ∧
    (runFile fsC7 [] (runFile fsC7 [] docC7).1).1 ≠ (runFile fsC7 [] docC7).1 := by
  decide

/-- C7 (amended): the second pass makes no further changes exactly on
documents whose first-pass output is canonical — every reference extracted
from it either does not resolve or resolves to its own literal.  In general
a first-run replacement can collaterally rewrite another attribute's value
into a non-canonical spelling that the second run then corrects, so
two-pass idempotence does not hold unconditionally. -/
theorem second_run_noop_when_canonical (root : FsTree) (pd : List Str) (content : Str)
    (h : ∀ v ∈ extractRefs (runFile root pd content).1,
      resolveVal root pd v = none ∨ resolveVal root pd v = some v) :
    runFile root pd (runFile root pd content).1 = ((runFile root pd content).1, false) :=
  processFile_id_of_canonical root pd (extractRefs (runFile root pd content).1)
    (runFile root pd content).1 h

/-- Concrete filesystem and document for the C7 witness. -/
def fsC7w : FsTree := .dir true [(utf8 "Test.jpg", .file)]

/-- See fsC7w. -/
def docC7w : Str := utf8 "<img src=\"test.jpg\">"

/-- C7 witness: after the first run corrects test.jpg to Test.jpg, every
extracted reference of the output is canonical, so the second run is a
no-op. -/
theorem second_run_noop_when_canonical_w :
    runFile fsC7w [] (runFile fsC7w [] docC7w).1 = ((runFile fsC7w [] docC7w).1, false) :=
  second_run_noop_when_canonical fsC7w [] docC7w (by decide)

/-- Concrete filesystem for C3: the first subdirectory is inaccessible, its
accessible sibling b holds b/x.html. -/
def fsC3 : FsTree :=
  .dir true [(utf8 "a", .dir false []), (utf8 "b", .dir true [(utf8 "x.html", .file)])]

/-- C3 counterexample: the claim says an inaccessible subtree is skipped and
the enumeration continues, so every HTML file in accessible sibling subtrees
is still returned.  The full enumeration of the tree holds b/x.html, in the
accessible sibling b of the inaccessible a, yet findHtmlFiles returns no
files at all: the exception thrown on descending into a escapes the whole
loop (the try block wraps the entire iteration), abandoning the rest of the
walk. -/
theorem sibling_after_error_not_returned :
    allHtmlFiles fsC3 = [[utf8 "b", utf8 "x.html"]] ∧
    findHtmlFiles fsC3 = ([], false) := by
  constructor
  · simp [fsC3, allHtmlFiles, allHtmlFilesAux, isHtmlExt, toLowerStr, extOf,
      tolowerByte, utf8, utf8EncodeChar]
  · simp [fsC3, findHtmlFiles, walkAux, utf8, utf8EncodeChar]

/-- C3 (amended): a filesystem_error does not fail the function — the walk
stops at the first inaccessible directory and the files collected up to that
point are returned (a prefix, in traversal order, of the full enumeration),
with the error surfaced as a non-fatal diagnostic; only when every directory
is accessible is the enumeration complete. -/
theorem findHtmlFiles_returns_truncated_walk (t : FsTree) :
    (findHtmlFiles t).1 <+: allHtmlFiles t ∧
    ((findHtmlFiles t).2 = true → (findHtmlFiles t).1 = allHtmlFiles t) ∧
    (allAccessibleTree t = true → findHtmlFiles t = (allHtmlFiles t, true)) := by
  cases t with
  | file =>
    refine ⟨⟨_, rfl⟩, by simp [findHtmlFiles], by simp [allAccessibleTree]⟩
  | dir acc es =>
    cases acc with
    | false =>
      refine ⟨⟨_, rfl⟩, ?_, ?_⟩
      · intro h
        simp [findHtmlFiles] at h
      · intro h
        simp [allAccessibleTree] at h
    | true =>
      obtain ⟨h1, h2, h3⟩ := walkAux_spec [] es
      have hfind : findHtmlFiles (.dir true es) = walkAux [] es := by
        simp [findHtmlFiles]
      have hall : allHtmlFiles (.dir true es) = allHtmlFilesAux [] es := rfl
      rw [hfind, hall]
      refine ⟨h1, h2, ?_⟩
      intro hacc
      have hacc' : allAccessibleEntries es = true := by
        simpa [allAccessibleTree] using hacc
      have hok := h3 hacc'
      have := h2 hok
      exact Prod.ext this hok

/-- Tree for the C3 witness: everything accessible. -/
def fsC3w : FsTree :=
  .dir true [(utf8 "sub", .dir true [(utf8 "y.htm", .file)]), (utf8 "z.html", .file)]

/-- C3 witness: the amended theorem applied to a fully accessible tree; the
hypothesis of its completeness conjunct is discharged concretely. -/
theorem findHtmlFiles_returns_truncated_walk_w :
    findHtmlFiles fsC3w = (allHtmlFiles fsC3w, true) :=
  (findHtmlFiles_returns_truncated_walk fsC3w).2.2
    (by simp [fsC3w, allAccessibleTree, allAccessibleEntries])

/-- C8: the directory driver shields every file behind its own try/catch: the
outcome list has one entry per file, each file's outcome depends only on that
file, an unreadable file yields a reported error with its content untouched,
and so does a file whose correction needs a write it cannot perform — no
failing file aborts the processing of the others. -/
theorem processDirectory_isolates_failures (root : FsTree) (files : List SrcFile) :
    (processDirectory root files).length = files.length ∧
    (∀ i : Nat, (processDirectory root files)[i]? = (files[i]?).map (fileOutcome root)) ∧
    (∀ f : SrcFile, f.readable = false → fileOutcome root f = .errorReported f.content) ∧
    (∀ f : SrcFile, f.readable = true → f.writable = false →
      (processFile root f.pd f.refs f.content).2 = true →
      fileOutcome root f = .errorReported f.content) := by
  refine ⟨?_, ?_, ?_, ?_⟩
  · induction files with
    | nil => rfl
    | cons f fs ih => simp [processDirectory, ih]
  · intro i
    induction files generalizing i with
    | nil => simp [processDirectory]
    | cons f fs ih =>
      cases i with
      | zero => simp [processDirectory]
      | succ j => simpa [processDirectory] using ih j
  · intro f h
    simp [fileOutcome, h]
  · intro f h1 h2 h3
    simp [fileOutcome, h1, h2, h3]

/-- Files for the C8 witness: an unreadable first file, an unwritable second
one needing a correction, and a healthy third. -/
def fileC8a : SrcFile := ⟨[], [], utf8 "<html></html>", false, true⟩

/-- See fileC8a. -/
def fileC8b : SrcFile := ⟨[], [utf8 "a.jpg"], utf8 "a.jpg", true, false⟩

/-- See fileC8a. -/
def fsC8 : FsTree := .dir true [(utf8 "A.jpg", .file)]

/-- C8 witness: both failure shapes reported per file, and the driver still
produces the outcome of each listed file. -/
theorem processDirectory_isolates_failures_w :
    fileOutcome fsC8 fileC8a = .errorReported fileC8a.content ∧
    fileOutcome fsC8 fileC8b = .errorReported fileC8b.content ∧
    (processDirectory fsC8 [fileC8a, fileC8b])[1]?
      = ([fileC8a, fileC8b][1]?).map (fileOutcome fsC8) :=
  ⟨(processDirectory_isolates_failures fsC8 []).2.2.1 fileC8a rfl,
   (processDirectory_isolates_failures fsC8 []).2.2.2 fileC8b rfl rfl (by decide),
   (processDirectory_isolates_failures fsC8 [fileC8a, fileC8b]).2.1 1⟩

end HtmlCaseCorrector
